import Mathlib

/-!
Verification development for the Manusplit document splitter.

The definitions below are a shallow embedding of the Python sources
`src/utils.py` and `src/splitter.py`.  Text is modelled as `List Char`.
Python's Unicode-aware character classes (`\w`, `\s`, `str.strip()`,
`str.split()`, `str.lower()`) are modelled on the character ranges the
source actually manipulates: ASCII word characters, the ASCII whitespace
characters together with the non-breaking space `'\xa0'`, and the three
dash characters named by the source.  Integers are modelled as `Nat`
(Python integers are unbounded and every quantity here is non-negative;
the settings layer constrains `max_words` to 1000..100000).  File-system
effects are modelled by returning the part contents that the source
would write.
-/

/-- Whitespace class of the model: ASCII whitespace plus the
non-breaking space.  Models Python's `\s`, `str.strip()` and
`str.split()` classes, restricted to these characters. -/
def isPyWs (c : Char) : Bool :=
  c == ' ' || c == '\t' || c == '\n' || c == '\x0b' || c == '\x0c' || c == '\r' ||
    c == '\xa0'

/-- Python `\w` (ASCII range): letters, digits and underscore. -/
def isWordChar (c : Char) : Bool :=
  c.isAlphanum || c == '_'

/-- The dash characters of `utils.count_words`: hyphen-minus, en dash, em dash. -/
def isDashSep (c : Char) : Bool :=
  c == '-' || c == '–' || c == '—'

/-- Closing punctuation of `utils.count_words` step 3: `, . ; : ! ? ) ] \x7d "`. -/
def isClosePunct (c : Char) : Bool :=
  c == ',' || c == '.' || c == ';' || c == ':' || c == '!' || c == '?' ||
    c == ')' || c == ']' || c == '\x7d' || c == '\x22'

/-- Opening punctuation of `utils.count_words` step 3: `( [ \x7b "`. -/
def isOpenPunct (c : Char) : Bool :=
  c == '(' || c == '[' || c == '\x7b' || c == '\x22'

/-- `text.replace('\xa0', ' ')`. -/
def replaceNbsp (l : List Char) : List Char :=
  l.map fun c => if c = '\xa0' then ' ' else c

/-- `re.sub(r'\s[-–—]\s', ' ', text)`: a dash surrounded by whitespace is
replaced, together with the two surrounding whitespace characters, by a
single space.  Matches are found left to right and do not overlap, as in
`re.sub`. -/
def subSpaceDashSpace : List Char → List Char
  | c0 :: c1 :: c2 :: rest =>
    if isPyWs c0 && isDashSep c1 && isPyWs c2 then
      ' ' :: subSpaceDashSpace rest
    else
      c0 :: subSpaceDashSpace (c1 :: c2 :: rest)
  | l => l

/-- The marker string `_HYPHEN_` of `utils.count_words` step 2. -/
def hyphenMarker : List Char := "_HYPHEN_".toList

/-- `re.sub(r'(\w+)-(\w+)', r'\1_HYPHEN_\2', text)`.  At a word
character, the regex engine greedily takes the maximal word-character
run; a match requires a `'-'` immediately after it followed by a
non-empty word-character run, and scanning resumes after the second run
(non-overlapping matches).  If the run is not followed by `'-'` plus a
word character, no match can start inside the run and scanning resumes
after it.  Fuel-based recursion; every step consumes at least one
character, so `length + 1` fuel is never exhausted. -/
def protectHyphensGo : Nat → List Char → List Char
  | 0, l => l
  | _ + 1, [] => []
  | fuel + 1, c :: rest =>
    if isWordChar c then
      let run := List.takeWhile isWordChar (c :: rest)
      let r1 := List.dropWhile isWordChar (c :: rest)
      match r1 with
      | '-' :: r2 =>
        let run2 := List.takeWhile isWordChar r2
        let r3 := List.dropWhile isWordChar r2
        if run2.isEmpty then
          run ++ protectHyphensGo fuel r1
        else
          run ++ hyphenMarker ++ run2 ++ protectHyphensGo fuel r3
      | _ => run ++ protectHyphensGo fuel r1
    else
      c :: protectHyphensGo fuel rest

def protectHyphens (l : List Char) : List Char :=
  protectHyphensGo (l.length + 1) l

/-- `re.sub(r'([,.;:!?)\]\x7d"])([\w])', r'\1 \2', text)`: insert a space
between closing punctuation and a following word character; scanning
resumes after the matched pair. -/
def addSpaceAfterPunct : List Char → List Char
  | c0 :: c1 :: rest =>
    if isClosePunct c0 && isWordChar c1 then
      c0 :: ' ' :: c1 :: addSpaceAfterPunct rest
    else
      c0 :: addSpaceAfterPunct (c1 :: rest)
  | l => l

/-- `re.sub(r'([\w])([([\x7b"])', r'\1 \2', text)`: insert a space
between a word character and a following opening punctuation character. -/
def addSpaceBeforePunct : List Char → List Char
  | c0 :: c1 :: rest =>
    if isWordChar c0 && isOpenPunct c1 then
      c0 :: ' ' :: c1 :: addSpaceBeforePunct rest
    else
      c0 :: addSpaceBeforePunct (c1 :: rest)
  | l => l

/-- `re.sub(r'\s+', ' ', text)`: collapse every whitespace run to a
single space.  The boolean records whether the previous character was
inside a whitespace run. -/
def collapseWsGo : Bool → List Char → List Char
  | _, [] => []
  | inRun, c :: rest =>
    if isPyWs c then
      if inRun then collapseWsGo true rest else ' ' :: collapseWsGo true rest
    else
      c :: collapseWsGo false rest

def collapseWs (l : List Char) : List Char :=
  collapseWsGo false l

def lstripBy (f : Char → Bool) (l : List Char) : List Char :=
  l.dropWhile f

def rstripBy (f : Char → Bool) (l : List Char) : List Char :=
  (l.reverse.dropWhile f).reverse

/-- Python `str.strip()` over the model's whitespace class. -/
def pyStrip (l : List Char) : List Char :=
  rstripBy isPyWs (lstripBy isPyWs l)

/-- Python `str.split()` with no separator: split on whitespace runs,
producing no empty tokens.  `acc` holds the current token reversed. -/
def pySplitGo (acc : List Char) : List Char → List (List Char)
  | [] => if acc.isEmpty then [] else [acc.reverse]
  | c :: rest =>
    if isPyWs c then
      if acc.isEmpty then pySplitGo [] rest else acc.reverse :: pySplitGo [] rest
    else
      pySplitGo (c :: acc) rest

def pySplit (l : List Char) : List (List Char) :=
  pySplitGo [] l

/-- `pat` is a prefix of the second list (character-wise). -/
def listStartsWith : List Char → List Char → Bool
  | [], _ => true
  | _ :: _, [] => false
  | p :: ps, c :: cs => p == c && listStartsWith ps cs

/-- `w.replace('_HYPHEN_', '-')`: replace every non-overlapping
occurrence of the marker, scanning left to right. -/
def restoreHyphensGo : Nat → List Char → List Char
  | 0, l => l
  | _ + 1, [] => []
  | fuel + 1, c :: rest =>
    if listStartsWith hyphenMarker (c :: rest) then
      '-' :: restoreHyphensGo fuel ((c :: rest).drop hyphenMarker.length)
    else
      c :: restoreHyphensGo fuel rest

def restoreHyphens (l : List Char) : List Char :=
  restoreHyphensGo (l.length + 1) l

/-- `utils.count_words`.  The contraction and abbreviation counts the
source computes are never used for the returned value (the source keeps
`adjusted_count = len(words)`), so they are not modelled. -/
def countWords (t : List Char) : Nat :=
  if t.isEmpty then 0
  else
    let s1 := replaceNbsp t
    let s2 := subSpaceDashSpace s1
    let s3 := protectHyphens s2
    let s4 := addSpaceAfterPunct s3
    let s5 := addSpaceBeforePunct s4
    let s6 := pyStrip (collapseWs s5)
    let words := (pySplit s6).map restoreHyphens
    words.length

/-- Decimal digits of a natural number, as Python's f-string prints it.
Fuel-based; `n + 1` fuel always suffices. -/
def natDigitsGo : Nat → Nat → List Char → List Char
  | 0, _, acc => acc
  | fuel + 1, k, acc =>
    if k < 10 then Nat.digitChar k :: acc
    else natDigitsGo fuel (k / 10) (Nat.digitChar (k % 10) :: acc)

def natDigits (n : Nat) : List Char :=
  natDigitsGo (n + 1) n []

/-- The characters removed by `utils.sanitize_filename`:
`\ / * ? : " < > |`. -/
def isInvalidFileChar (c : Char) : Bool :=
  c == '\\' || c == '/' || c == '*' || c == '?' || c == ':' || c == '\x22' ||
    c == '<' || c == '>' || c == '|'

/-- `utils.sanitize_filename`: remove invalid characters, strip
surrounding whitespace, strip trailing periods, and fall back to
`untitled` when nothing remains. -/
def sanitize_filename (l : List Char) : List Char :=
  let s1 := l.filter fun c => !isInvalidFileChar c
  let s2 := rstripBy (fun c => c == '.') (pyStrip s1)
  if s2.isEmpty then "untitled".toList else s2

/-- `os.path.basename` (POSIX): the part after the last `'/'`. -/
def pathBasename (p : List Char) : List Char :=
  (p.reverse.takeWhile (fun c => c != '/')).reverse

/-- `os.path.splitext` on a single path component: split at the last
dot, unless every character before that dot is also a dot (a leading-dot
run is not an extension separator). -/
def splitextName (name : List Char) : List Char × List Char :=
  let afterRev := name.reverse.takeWhile (fun c => c != '.')
  let restRev := name.reverse.dropWhile (fun c => c != '.')
  match restRev with
  | [] => (name, [])
  | _ :: beforeRev =>
    if (beforeRev.reverse).all (fun c => c == '.') then (name, [])
    else (beforeRev.reverse, '.' :: afterRev.reverse)

/-- `os.path.splitext` on a full POSIX path: the extension is sought in
the final path component. -/
def splitextPath (p : List Char) : List Char × List Char :=
  let name := pathBasename p
  let dir := p.take (p.length - name.length)
  let pair := splitextName name
  (dir ++ pair.1, pair.2)

/-- The end-anchored match shared by
`re.search(r'- Part \d+\.\w+$', name)` and
`re.sub(r'- Part \d+(\.\w+)$', r'\1', name)`:
`name = pre ++ "- Part " ++ digits ++ '.' ++ wordchars` with both runs
non-empty.  Because the pattern is anchored at the end of the string and
neither `'.'` nor `' '` is a word character, at most one decomposition
exists; the function returns `(pre, '.' ++ wordchars)` when it does. -/
def matchPartMarker (name : List Char) : Option (List Char × List Char) :=
  let rev := name.reverse
  let w := rev.takeWhile isWordChar
  let r1 := rev.dropWhile isWordChar
  if w.isEmpty then none
  else
    match r1 with
    | '.' :: r2 =>
      let d := r2.takeWhile Char.isDigit
      let r3 := r2.dropWhile Char.isDigit
      if d.isEmpty then none
      else if listStartsWith (("- Part ".toList).reverse) r3 then
        some ((r3.drop 7).reverse, '.' :: w.reverse)
      else none
    | _ => none

/-- `utils.is_part_file`. -/
def is_part_file (name : List Char) : Bool :=
  (matchPartMarker name).isSome

/-- `utils.get_output_filename`.  Returns the output path
`output_folder ++ '/' ++ new_filename` (POSIX `Path` join with a
folder that does not end in a slash).  `maxLength` models the
`max_length` parameter; every call site in the source uses 200 (the
source never calls it with `max_length < 15`, so `Nat` subtraction in
the truncation bound is exact). -/
def get_output_filename (originalPath : List Char) (partNum : Nat)
    (outputFolder : List Char) (maxLength : Nat) : List Char :=
  let originalName := pathBasename originalPath
  let strippedName :=
    match matchPartMarker originalName with
    | some pe => pe.1 ++ pe.2
    | none => originalName
  let pair := splitextName strippedName
  let baseName := pair.1
  let extension := pair.2
  let baseName' :=
    if baseName.length > maxLength - 15 then
      baseName.take (maxLength - 15) ++ "...".toList
    else baseName
  let newFilename :=
    baseName' ++ " - Part ".toList ++ natDigits partNum ++ extension
  outputFolder ++ '/' :: sanitize_filename newFilename

/-! ## The paragraph packer (`splitter.DocumentSplitter`)

The packing loops of `_process_txt` (lines 248-299) and `_process_docx`
(lines 120-179) are identical except for the final flush:
`_process_txt` saves the last part `if current_content:` (list
non-empty) while `_process_docx` saves it `if current_words > 0:`.
Both are modelled over an abstract paragraph type `P` with a word-count
function `wc`; the claims instantiate `P := List Char` (a paragraph's
text) and `wc := countWords`.  Writing a part file is modelled by
appending the part's paragraph list to `emitted`. -/

/-- The loop state of the packing loops: `part_num`,
`current_content`/`current_doc` (as its paragraph list),
`current_words`, and the parts saved so far (in creation order). -/
structure PackState (P : Type) where
  partNum : Nat
  current : List P
  currentWords : Nat
  emitted : List (List P)
deriving DecidableEq

/-- Initial loop state: `part_num = 1`, empty current part, no words,
nothing saved. -/
def packInit (P : Type) : PackState P :=
  ⟨1, [], 0, []⟩

/-- One iteration of the packing loop body (common to both handlers):
if adding the paragraph would exceed the limit and `current_words > 0`,
save the current part, increment `part_num` and reset; then append the
paragraph and its word count. -/
def packStep (m : Nat) (wc : P → Nat) (s : PackState P) (p : P) : PackState P :=
  if s.currentWords + wc p > m ∧ s.currentWords > 0 then
    ⟨s.partNum + 1, [p], wc p, s.emitted ++ [s.current]⟩
  else
    ⟨s.partNum, s.current ++ [p], s.currentWords + wc p, s.emitted⟩

/-- The packing loop run over all paragraphs. -/
def packRun (m : Nat) (wc : P → Nat) (ps : List P) : PackState P :=
  ps.foldl (packStep m wc) (packInit P)

/-- Parts written by `_process_txt`: loop, then save the last part if
`current_content` is non-empty. -/
def packPartsTxt (m : Nat) (wc : P → Nat) (ps : List P) : List (List P) :=
  let s := packRun m wc ps
  if s.current.isEmpty then s.emitted else s.emitted ++ [s.current]

/-- Parts written by `_process_docx`: loop, then save the last part if
`current_words > 0`. -/
def packPartsDocx (m : Nat) (wc : P → Nat) (ps : List P) : List (List P) :=
  let s := packRun m wc ps
  if s.currentWords > 0 then s.emitted ++ [s.current] else s.emitted

/-- Total word count of a part. -/
def sumWc (wc : P → Nat) (part : List P) : Nat :=
  (part.map wc).sum

/-- The result messages of the splitter, modelled by kind and payload
(the source formats them into strings):
`skipped total` is `"Skipped: <name> (only <total> words)"`,
`splitInto parts total` is `"Split into <parts> parts (<total> words)"`,
`unsupported ext` is `"Unsupported file type: <ext>"`,
`accessError` is `"Error accessing file: <reason>"`. -/
inductive Msg where
  | empty : Msg
  | skipped (totalWords : Nat) : Msg
  | splitInto (parts : Nat) (totalWords : Nat) : Msg
  | unsupported (ext : List Char) : Msg
  | accessError : Msg
deriving DecidableEq

/-- The result dictionary of `process_file` and its handlers
(`original_path` omitted; `output_files` modelled by the parts'
paragraph lists, in the order the files are written). -/
structure SplitResult (P : Type) where
  success : Bool
  message : Msg
  totalWords : Nat
  partsCreated : Nat
  outputParts : List (List P)
deriving DecidableEq

/-- The common body of `_process_txt` (lines 229-304) and
`_process_docx` with the txt final flush, after paragraph extraction:
compute the total, skip if under the limit, otherwise pack.  Note that
`parts_created` is set to `part_num`, whose value is the final
`partNum` of the loop state whether or not the last part was saved. -/
def processParasTxt (m : Nat) (skip : Bool) (wc : P → Nat) (ps : List P) :
    SplitResult P :=
  let totalWords := sumWc wc ps
  if totalWords ≤ m ∧ skip then
    ⟨true, .skipped totalWords, totalWords, 0, []⟩
  else
    let s := packRun m wc ps
    let parts := if s.current.isEmpty then s.emitted else s.emitted ++ [s.current]
    ⟨true, .splitInto s.partNum totalWords, totalWords, s.partNum, parts⟩

/-- Same as `processParasTxt` but with the `_process_docx` final flush
(`if current_words > 0`, lines 168-174). -/
def processParasDocx (m : Nat) (skip : Bool) (wc : P → Nat) (ps : List P) :
    SplitResult P :=
  let totalWords := sumWc wc ps
  if totalWords ≤ m ∧ skip then
    ⟨true, .skipped totalWords, totalWords, 0, []⟩
  else
    let s := packRun m wc ps
    let parts := if s.currentWords > 0 then s.emitted ++ [s.current] else s.emitted
    ⟨true, .splitInto s.partNum totalWords, totalWords, s.partNum, parts⟩

/-! ## DOCX paragraph extraction and file dispatch -/

/-- A DOCX paragraph, by its text.  Run-level formatting
(bold/italic/underline spans) only affects how a part is re-encoded,
never which paragraphs land in which part, and is not modelled. -/
structure DocxPara where
  text : List Char
deriving DecidableEq

structure DocxCell where
  paragraphs : List DocxPara
deriving DecidableEq

structure DocxRow where
  cells : List DocxCell
deriving DecidableEq

structure DocxTable where
  rows : List DocxRow
deriving DecidableEq

/-- A DOCX document as `python-docx` presents it: body paragraphs and
tables. -/
structure DocxDoc where
  paragraphs : List DocxPara
  tables : List DocxTable
deriving DecidableEq

/-- `_get_docx_paragraphs`: yield the body paragraphs whose text does
not strip to empty, in document order, then for each table, row and
cell, the cell paragraphs whose text does not strip to empty. -/
def getDocxParagraphs (doc : DocxDoc) : List DocxPara :=
  (doc.paragraphs.filter fun p => !(pyStrip p.text).isEmpty) ++
    (doc.tables.flatMap fun table =>
      table.rows.flatMap fun row =>
        row.cells.flatMap fun cell =>
          cell.paragraphs.filter fun p => !(pyStrip p.text).isEmpty)

/-- Paragraph extraction of `_process_txt` (lines 218-227): split the
file content on `"\n\n"`; if that yields a single piece, split on
`"\n"` instead; strip each piece and keep the non-empty ones. -/
def splitOnNlNl : List Char → List (List Char) → List Char → List (List Char)
  | acc, parts, [] => (acc.reverse :: parts).reverse
  | acc, parts, '\n' :: '\n' :: rest => splitOnNlNl [] (acc.reverse :: parts) rest
  | acc, parts, c :: rest => splitOnNlNl (c :: acc) parts rest

def splitOnNl (l : List Char) : List (List Char) :=
  (l.splitOn '\n')

def splitTxtParagraphs (content : List Char) : List (List Char) :=
  let paragraphs := splitOnNlNl [] [] content
  let paragraphs := if paragraphs.length = 1 then splitOnNl content else paragraphs
  (paragraphs.map pyStrip).filter fun p => !p.isEmpty

/-- `_process_docx` after loading the document (lines 100-184),
modelled with the document already parsed. -/
def process_docx (m : Nat) (skip : Bool) (doc : DocxDoc) : SplitResult (List Char) :=
  processParasDocx m skip countWords ((getDocxParagraphs doc).map DocxPara.text)

/-- `_process_txt` after reading the file (lines 218-304), modelled
with the file content given. -/
def process_txt (m : Nat) (skip : Bool) (content : List Char) : SplitResult (List Char) :=
  processParasTxt m skip countWords (splitTxtParagraphs content)

/-- `DocumentSplitter.process_file` (lines 26-70): check file access,
lower-case the path, take its extension, and dispatch on it.  The
file's parsed content is supplied as `docxDoc`/`txtContent` (reading
and parsing are I/O done by collaborators); the unsupported-extension
branch consults neither. -/
def process_file (m : Nat) (skip : Bool) (path : List Char) (canAccess : Bool)
    (docxDoc : DocxDoc) (txtContent : List Char) : SplitResult (List Char) :=
  if !canAccess then
    ⟨false, .accessError, 0, 0, []⟩
  else
    let ext := (splitextPath (path.map Char.toLower)).2
    if ext = ".docx".toList then process_docx m skip docxDoc
    else if ext = ".txt".toList then process_txt m skip txtContent
    else ⟨false, .unsupported ext, 0, 0, []⟩

/-! ## Packing-loop lemmas -/

/-- Finish a txt-style run from an arbitrary loop state: fold the
remaining paragraphs, then save the last part if non-empty. -/
def packFinishTxt (m : Nat) (wc : P → Nat) (s : PackState P) (l : List P) :
    List (List P) :=
  let r := l.foldl (packStep m wc) s
  if r.current.isEmpty then r.emitted else r.emitted ++ [r.current]

/-- Finish a docx-style run from an arbitrary loop state: fold the
remaining paragraphs, then save the last part if its word count is
positive. -/
def packFinishDocx (m : Nat) (wc : P → Nat) (s : PackState P) (l : List P) :
    List (List P) :=
  let r := l.foldl (packStep m wc) s
  if r.currentWords > 0 then r.emitted ++ [r.current] else r.emitted

lemma packPartsTxt_eq_finish (m : Nat) (wc : P → Nat) (ps : List P) :
    packPartsTxt m wc ps = packFinishTxt m wc (packInit P) ps := rfl

lemma packPartsDocx_eq_finish (m : Nat) (wc : P → Nat) (ps : List P) :
    packPartsDocx m wc ps = packFinishDocx m wc (packInit P) ps := rfl

lemma packStep_close (m : Nat) (wc : P → Nat) (s : PackState P) (p : P)
    (h : s.currentWords + wc p > m ∧ s.currentWords > 0) :
    packStep m wc s p = ⟨s.partNum + 1, [p], wc p, s.emitted ++ [s.current]⟩ := by
  simp [packStep, h]

lemma packStep_add (m : Nat) (wc : P → Nat) (s : PackState P) (p : P)
    (h : ¬ (s.currentWords + wc p > m ∧ s.currentWords > 0)) :
    packStep m wc s p = ⟨s.partNum, s.current ++ [p], s.currentWords + wc p, s.emitted⟩ := by
  simp only [packStep, if_neg h]

/-- Already-saved parts pass through the rest of the loop untouched: a
run from a state carrying saved parts `E` is the run from the same
state carrying none, with `E` prepended to the saved parts. -/
lemma foldl_packStep_emitted (m : Nat) (wc : P → Nat) (l : List P) :
    ∀ (pn : Nat) (cur : List P) (cw : Nat) (E : List (List P)),
      l.foldl (packStep m wc) ⟨pn, cur, cw, E⟩ =
        ⟨(l.foldl (packStep m wc) ⟨pn, cur, cw, []⟩).partNum,
         (l.foldl (packStep m wc) ⟨pn, cur, cw, []⟩).current,
         (l.foldl (packStep m wc) ⟨pn, cur, cw, []⟩).currentWords,
         E ++ (l.foldl (packStep m wc) ⟨pn, cur, cw, []⟩).emitted⟩ := by
  induction l with
  | nil => intro pn cur cw E; simp
  | cons p l ih =>
    intro pn cur cw E
    simp only [List.foldl_cons]
    by_cases hc : cw + wc p > m ∧ cw > 0
    · rw [packStep_close m wc _ p hc, packStep_close m wc _ p hc]
      rw [ih (pn + 1) [p] (wc p) (((⟨pn, cur, cw, E⟩ : PackState P)).emitted ++ [cur]),
        ih (pn + 1) [p] (wc p) (((⟨pn, cur, cw, []⟩ : PackState P)).emitted ++ [cur])]
      simp [List.append_assoc]
    · rw [packStep_add m wc _ p hc, packStep_add m wc _ p hc]
      rw [ih pn (cur ++ [p]) (cw + wc p) E, ih pn (cur ++ [p]) (cw + wc p) []]

lemma packFinishTxt_emitted (m : Nat) (wc : P → Nat) (l : List P)
    (pn cw : Nat) (cur : List P) (E : List (List P)) :
    packFinishTxt m wc ⟨pn, cur, cw, E⟩ l =
      E ++ packFinishTxt m wc ⟨pn, cur, cw, []⟩ l := by
  unfold packFinishTxt
  rw [foldl_packStep_emitted]
  dsimp only
  split <;> simp

lemma packFinishDocx_emitted (m : Nat) (wc : P → Nat) (l : List P)
    (pn cw : Nat) (cur : List P) (E : List (List P)) :
    packFinishDocx m wc ⟨pn, cur, cw, E⟩ l =
      E ++ packFinishDocx m wc ⟨pn, cur, cw, []⟩ l := by
  unfold packFinishDocx
  rw [foldl_packStep_emitted]
  dsimp only
  split <;> simp

lemma packFinishTxt_cons (m : Nat) (wc : P → Nat) (s : PackState P) (p : P)
    (l : List P) :
    packFinishTxt m wc s (p :: l) = packFinishTxt m wc (packStep m wc s p) l := by
  unfold packFinishTxt
  rw [List.foldl_cons]

lemma packFinishDocx_cons (m : Nat) (wc : P → Nat) (s : PackState P) (p : P)
    (l : List P) :
    packFinishDocx m wc s (p :: l) = packFinishDocx m wc (packStep m wc s p) l := by
  unfold packFinishDocx
  rw [List.foldl_cons]

/-- A state whose current part already exceeds the limit: if the input
is exhausted, the txt flush saves that part; otherwise the very next
paragraph closes it.  Either way it is saved as-is, alone. -/
lemma packFinishTxt_oversized (m : Nat) (wc : P → Nat) (l : List P)
    (pn cw : Nat) (cur : List P) (E : List (List P))
    (hne : cur ≠ []) (hcw : m < cw) :
    packFinishTxt m wc ⟨pn, cur, cw, E⟩ l =
      E ++ cur :: packFinishTxt m wc ⟨pn + 1, [], 0, []⟩ l := by
  cases l with
  | nil =>
    unfold packFinishTxt
    simp [hne]
  | cons p l =>
    have hclose : cw + wc p > m ∧ cw > 0 :=
      ⟨Nat.lt_of_lt_of_le hcw (Nat.le_add_right cw (wc p)),
        Nat.lt_of_le_of_lt (Nat.zero_le m) hcw⟩
    have hopen : ¬ (0 + wc p > m ∧ 0 > 0) := by
      rintro ⟨-, h⟩
      exact Nat.lt_irrefl 0 h
    have h1 : packFinishTxt m wc ⟨pn, cur, cw, E⟩ (p :: l) =
        packFinishTxt m wc ⟨pn + 1, [p], wc p, E ++ [cur]⟩ l := by
      rw [packFinishTxt_cons, packStep_close m wc _ p hclose]
    have h2 : packFinishTxt m wc ⟨pn + 1, [], 0, []⟩ (p :: l) =
        packFinishTxt m wc ⟨pn + 1, [p], wc p, []⟩ l := by
      rw [packFinishTxt_cons, packStep_add m wc _ p hopen]
      simp only [List.nil_append, Nat.zero_add]
    rw [h1, h2, packFinishTxt_emitted m wc l (pn + 1) (wc p) [p] (E ++ [cur])]
    simp

/-- Docx counterpart of `packFinishTxt_oversized`; the docx flush saves
on positive word count, which the oversized part has. -/
lemma packFinishDocx_oversized (m : Nat) (wc : P → Nat) (l : List P)
    (pn cw : Nat) (cur : List P) (E : List (List P)) (hcw : m < cw) :
    packFinishDocx m wc ⟨pn, cur, cw, E⟩ l =
      E ++ cur :: packFinishDocx m wc ⟨pn + 1, [], 0, []⟩ l := by
  cases l with
  | nil =>
    unfold packFinishDocx
    simp [Nat.lt_of_le_of_lt (Nat.zero_le m) hcw]
  | cons p l =>
    have hclose : cw + wc p > m ∧ cw > 0 :=
      ⟨Nat.lt_of_lt_of_le hcw (Nat.le_add_right cw (wc p)),
        Nat.lt_of_le_of_lt (Nat.zero_le m) hcw⟩
    have hopen : ¬ (0 + wc p > m ∧ 0 > 0) := by
      rintro ⟨-, h⟩
      exact Nat.lt_irrefl 0 h
    have h1 : packFinishDocx m wc ⟨pn, cur, cw, E⟩ (p :: l) =
        packFinishDocx m wc ⟨pn + 1, [p], wc p, E ++ [cur]⟩ l := by
      rw [packFinishDocx_cons, packStep_close m wc _ p hclose]
    have h2 : packFinishDocx m wc ⟨pn + 1, [], 0, []⟩ (p :: l) =
        packFinishDocx m wc ⟨pn + 1, [p], wc p, []⟩ l := by
      rw [packFinishDocx_cons, packStep_add m wc _ p hopen]
      simp only [List.nil_append, Nat.zero_add]
    rw [h1, h2, packFinishDocx_emitted m wc l (pn + 1) (wc p) [p] (E ++ [cur])]
    simp

/-- A part is size-admissible when its total is within the limit, or it
carries a paragraph exceeding the limit whose count is the whole total
(every other paragraph in it counts 0 words). -/
def PartOk (m : Nat) (wc : P → Nat) (part : List P) : Prop :=
  sumWc wc part ≤ m ∨ ∃ p ∈ part, m < wc p ∧ sumWc wc part = wc p

/-- Loop invariant of the packing loop: the running count tracks the
current part, and the current part and every saved part are
size-admissible. -/
def PackInv (m : Nat) (wc : P → Nat) (s : PackState P) : Prop :=
  s.currentWords = sumWc wc s.current ∧ PartOk m wc s.current ∧
    ∀ part ∈ s.emitted, PartOk m wc part

lemma sumWc_append (wc : P → Nat) (l₁ l₂ : List P) :
    sumWc wc (l₁ ++ l₂) = sumWc wc l₁ + sumWc wc l₂ := by
  simp [sumWc]

lemma sumWc_singleton (wc : P → Nat) (p : P) : sumWc wc [p] = wc p := by
  simp [sumWc]

lemma packStep_inv (m : Nat) (wc : P → Nat) (s : PackState P) (p : P)
    (h : PackInv m wc s) : PackInv m wc (packStep m wc s p) := by
  obtain ⟨hw, hcur, hem⟩ := h
  by_cases hc : s.currentWords + wc p > m ∧ s.currentWords > 0
  · rw [packStep_close m wc s p hc]
    refine ⟨by simp [sumWc], ?_, ?_⟩
    · by_cases hp : wc p ≤ m
      · exact Or.inl (by simpa [sumWc_singleton] using hp)
      · exact Or.inr ⟨p, by simp, by omega, by simp [sumWc_singleton]⟩
    · intro part hpart
      rcases List.mem_append.mp hpart with hmem | hmem
      · exact hem part hmem
      · rw [List.mem_singleton.mp hmem]
        exact hcur
  · rw [packStep_add m wc s p hc]
    refine ⟨by simp [sumWc_append, sumWc_singleton, hw], ?_, hem⟩
    dsimp only
    have hsum : sumWc wc (s.current ++ [p]) = sumWc wc s.current + wc p := by
      rw [sumWc_append, sumWc_singleton]
    by_cases hp : sumWc wc (s.current ++ [p]) ≤ m
    · exact Or.inl hp
    · refine Or.inr ⟨p, List.mem_append_right _ (List.mem_singleton.mpr rfl), ?_, ?_⟩
      · omega
      · omega

lemma foldl_packStep_inv (m : Nat) (wc : P → Nat) (l : List P) :
    ∀ s : PackState P, PackInv m wc s → PackInv m wc (l.foldl (packStep m wc) s) := by
  induction l with
  | nil => exact fun s h => h
  | cons p l ih => exact fun s h => ih _ (packStep_inv m wc s p h)

lemma packRun_inv (m : Nat) (wc : P → Nat) (ps : List P) :
    PackInv m wc (packRun m wc ps) := by
  apply foldl_packStep_inv
  exact ⟨rfl, Or.inl (Nat.zero_le m), by simp [packInit]⟩

lemma packPartsTxt_ok (m : Nat) (wc : P → Nat) (ps : List P) :
    ∀ part ∈ packPartsTxt m wc ps, PartOk m wc part := by
  obtain ⟨hw, hcur, hem⟩ := packRun_inv m wc ps
  intro part hpart
  have hdef : packPartsTxt m wc ps =
      (if (packRun m wc ps).current.isEmpty then (packRun m wc ps).emitted
       else (packRun m wc ps).emitted ++ [(packRun m wc ps).current]) := rfl
  rw [hdef] at hpart
  split at hpart
  · exact hem part hpart
  · rcases List.mem_append.mp hpart with hmem | hmem
    · exact hem part hmem
    · rw [List.mem_singleton.mp hmem]
      exact hcur

lemma packPartsDocx_ok (m : Nat) (wc : P → Nat) (ps : List P) :
    ∀ part ∈ packPartsDocx m wc ps, PartOk m wc part := by
  obtain ⟨hw, hcur, hem⟩ := packRun_inv m wc ps
  intro part hpart
  have hdef : packPartsDocx m wc ps =
      (if (packRun m wc ps).currentWords > 0 then
        (packRun m wc ps).emitted ++ [(packRun m wc ps).current]
       else (packRun m wc ps).emitted) := rfl
  rw [hdef] at hpart
  split at hpart
  · rcases List.mem_append.mp hpart with hmem | hmem
    · exact hem part hmem
    · rw [List.mem_singleton.mp hmem]
      exact hcur
  · exact hem part hpart

lemma packFinishTxt_append (m : Nat) (wc : P → Nat) (s : PackState P)
    (l₁ l₂ : List P) :
    packFinishTxt m wc s (l₁ ++ l₂) =
      packFinishTxt m wc (l₁.foldl (packStep m wc) s) l₂ := by
  unfold packFinishTxt
  rw [List.foldl_append]

lemma packFinishDocx_append (m : Nat) (wc : P → Nat) (s : PackState P)
    (l₁ l₂ : List P) :
    packFinishDocx m wc s (l₁ ++ l₂) =
      packFinishDocx m wc (l₁.foldl (packStep m wc) s) l₂ := by
  unfold packFinishDocx
  rw [List.foldl_append]

/-! ## Claim theorems -/

/-- C7: `count_words("well-known word") = 2` — a hyphen directly
joining two word characters is protected before tokenization and
restored after, so the hyphenated pair counts as one word — and
`count_words("word - word") = 2` — a dash surrounded by whitespace is
replaced by a space and contributes no token. -/
theorem c7_hyphen_handling :
    countWords ("well-known word".toList) = 2 ∧
      countWords ("word - word".toList) = 2 := by
  decide

/-- C2 counterexample: with `maxWords = 5`, the paragraph texts `" - "`
(word count 0, yet not whitespace-only by `strip`, so the DOCX
extractor keeps it) and `"a b c d e f"` (word count 6) are packed into
the single two-paragraph part whose total 6 exceeds the limit — a part
that is neither within the limit nor a single-paragraph part, refuting
the claimed bound. -/
theorem c2_size_bound_counterexample :
    ¬ (∀ part ∈ packPartsDocx 5 countWords [(" - ".toList), ("a b c d e f".toList)],
        sumWc countWords part ≤ 5 ∨ part.length = 1) := by
  decide

/-- C2 (amended): for positive `maxWords`, every part produced by
either packing loop has its total within the limit, or contains a
paragraph whose own count exceeds the limit and equals the part's total
(all other paragraphs of such a part count 0 words; the original
claim's single-oversized-paragraph part is the case with no zero-count
paragraphs). -/
theorem c2_size_bound_amended (m : Nat) (ps : List (List Char)) (hm : 0 < m) :
    (∀ part ∈ packPartsTxt m countWords ps,
        sumWc countWords part ≤ m ∨
          ∃ p ∈ part, m < countWords p ∧ sumWc countWords part = countWords p) ∧
      (∀ part ∈ packPartsDocx m countWords ps,
        sumWc countWords part ≤ m ∨
          ∃ p ∈ part, m < countWords p ∧ sumWc countWords part = countWords p) :=
  ⟨fun part h => packPartsTxt_ok m countWords ps part h,
    fun part h => packPartsDocx_ok m countWords ps part h⟩

theorem c2_size_bound_amended_witness :
    0 < 5 ∧
      ((∀ part ∈ packPartsTxt 5 countWords [("hello world".toList)],
          sumWc countWords part ≤ 5 ∨
            ∃ p ∈ part, 5 < countWords p ∧ sumWc countWords part = countWords p) ∧
        (∀ part ∈ packPartsDocx 5 countWords [("hello world".toList)],
          sumWc countWords part ≤ 5 ∨
            ∃ p ∈ part, 5 < countWords p ∧ sumWc countWords part = countWords p)) :=
  ⟨by decide, c2_size_bound_amended 5 [("hello world".toList)] (by decide)⟩

/-- C5 (code-bug evaluation): zero paragraphs.  With
`skipUnderLimit = true` the skip branch reports 0 parts, but with
`skipUnderLimit = false` the packing branch reports `parts_created = 1`
(the final `part_num`) while writing no output file, contradicting the
claimed 0 parts. -/
theorem c5_empty_input_eval :
    processParasTxt 100 false countWords ([] : List (List Char)) =
        ⟨true, .splitInto 1 0, 0, 1, []⟩ ∧
      processParasDocx 100 false countWords ([] : List (List Char)) =
        ⟨true, .splitInto 1 0, 0, 1, []⟩ ∧
      processParasTxt 100 true countWords ([] : List (List Char)) =
        ⟨true, .skipped 0, 0, 0, []⟩ ∧
      processParasDocx 100 true countWords ([] : List (List Char)) =
        ⟨true, .skipped 0, 0, 0, []⟩ := by
  decide

/-- C1 (code-bug evaluation): the txt final flush
(`if current_content:`) saves a trailing part with word count 0, but
the docx final flush (`if current_words > 0:`) drops it.  For the
single kept DOCX paragraph text `" - "` (its `strip` is `"-"`, its word
count 0) with `maxWords = 5` and the skip rule off, the docx path emits
no parts at all, so the concatenation of its parts is empty and does
not reproduce the input; the txt flush preserves it. -/
theorem c1_partition_docx_eval :
    (processParasDocx 5 false countWords [(" - ".toList)]).outputParts = [] ∧
      (processParasTxt 5 false countWords [(" - ".toList)]).outputParts =
        [[(" - ".toList)]] ∧
      [(" - ".toList)] ≠ ([] : List (List Char)) := by
  decide

/-- C4: whenever the document's total word count is within `maxWords`
and `skipUnderLimit` is on, both handlers return the skip result before
any packing: success, zero parts, no output files, the computed total,
and the skipped message carrying that total. -/
theorem c4_skip_under_limit (m : Nat) (ps : List (List Char))
    (h : sumWc countWords ps ≤ m) :
    processParasTxt m true countWords ps =
        ⟨true, .skipped (sumWc countWords ps), sumWc countWords ps, 0, []⟩ ∧
      processParasDocx m true countWords ps =
        ⟨true, .skipped (sumWc countWords ps), sumWc countWords ps, 0, []⟩ := by
  constructor <;> simp [processParasTxt, processParasDocx, h]

theorem c4_skip_under_limit_witness :
    sumWc countWords [("a b".toList)] ≤ 100 ∧
      (processParasTxt 100 true countWords [("a b".toList)] =
          ⟨true, .skipped (sumWc countWords [("a b".toList)]),
            sumWc countWords [("a b".toList)], 0, []⟩ ∧
        processParasDocx 100 true countWords [("a b".toList)] =
          ⟨true, .skipped (sumWc countWords [("a b".toList)]),
            sumWc countWords [("a b".toList)], 0, []⟩) :=
  ⟨by decide, c4_skip_under_limit 100 [("a b".toList)] (by decide)⟩

/-- C9: a file that passes the access check but whose lower-cased
extension is neither `.docx` nor `.txt` yields, for every limit, skip
setting and (unconsulted) file content, the immediate failure result
naming the unsupported extension: no success, zero totals, no parts,
no output files. -/
theorem c9_unsupported_extension (m : Nat) (skip : Bool) (path : List Char)
    (doc : DocxDoc) (txt : List Char)
    (h1 : (splitextPath (path.map Char.toLower)).2 ≠ ".docx".toList)
    (h2 : (splitextPath (path.map Char.toLower)).2 ≠ ".txt".toList) :
    process_file m skip path true doc txt =
      ⟨false, .unsupported ((splitextPath (path.map Char.toLower)).2), 0, 0, []⟩ := by
  have h1' := h1
  have h2' := h2
  rw [show (".docx".toList) = ['.', 'd', 'o', 'c', 'x'] from rfl] at h1'
  rw [show (".txt".toList) = ['.', 't', 'x', 't'] from rfl] at h2'
  unfold process_file
  simp [h1', h2']

theorem c9_unsupported_extension_witness :
    ((splitextPath (("doc.pdf".toList).map Char.toLower)).2 ≠ ".docx".toList) ∧
      ((splitextPath (("doc.pdf".toList).map Char.toLower)).2 ≠ ".txt".toList) ∧
      process_file 100 false ("doc.pdf".toList) true ⟨[], []⟩ [] =
        ⟨false, .unsupported ((splitextPath (("doc.pdf".toList).map Char.toLower)).2),
          0, 0, []⟩ :=
  ⟨by decide, by decide,
    c9_unsupported_extension 100 false ("doc.pdf".toList) ⟨[], []⟩ []
      (by decide) (by decide)⟩

/-- Escape lemma for the txt flush: a paragraph `p` with `wc p > m`
that arrives while the accumulated part is empty — nothing packed yet —
or while the running count is positive — so the overflow check fires
and resets the part before `p` is appended — forms a part of its own. -/
lemma packPartsTxt_escape (m : Nat) (wc : P → Nat) (ps₁ ps₂ : List P) (p : P)
    (hpos : (packRun m wc ps₁).current = [] ∨ 0 < (packRun m wc ps₁).currentWords)
    (hov : m < wc p) :
    ∃ pre post, packPartsTxt m wc (ps₁ ++ p :: ps₂) = pre ++ [p] :: post := by
  have hw := (packRun_inv m wc ps₁).1
  have hsplit : packPartsTxt m wc (ps₁ ++ p :: ps₂) =
      packFinishTxt m wc (packRun m wc ps₁) (p :: ps₂) := by
    rw [packPartsTxt_eq_finish, packFinishTxt_append]
    rfl
  rcases hpos with hnil | hposw
  · have hcw0 : (packRun m wc ps₁).currentWords = 0 := by
      rw [hw, hnil]; simp [sumWc]
    have hstep : packStep m wc (packRun m wc ps₁) p =
        ⟨(packRun m wc ps₁).partNum, [p], wc p, (packRun m wc ps₁).emitted⟩ := by
      rw [packStep_add m wc _ p (by rintro ⟨-, hgt⟩; omega)]
      rw [hnil, hcw0]
      simp
    refine ⟨(packRun m wc ps₁).emitted,
      packFinishTxt m wc ⟨(packRun m wc ps₁).partNum + 1, [], 0, []⟩ ps₂, ?_⟩
    rw [hsplit, packFinishTxt_cons, hstep,
      packFinishTxt_oversized m wc ps₂ _ (wc p) [p] _ (by simp) hov]
  · have hc : (packRun m wc ps₁).currentWords + wc p > m ∧
        (packRun m wc ps₁).currentWords > 0 :=
      ⟨Nat.lt_of_lt_of_le hov (Nat.le_add_left _ _), hposw⟩
    refine ⟨(packRun m wc ps₁).emitted ++ [(packRun m wc ps₁).current],
      packFinishTxt m wc ⟨(packRun m wc ps₁).partNum + 1 + 1, [], 0, []⟩ ps₂, ?_⟩
    rw [hsplit, packFinishTxt_cons, packStep_close m wc _ p hc,
      packFinishTxt_oversized m wc ps₂ _ (wc p) [p] _ (by simp) hov]

/-- Escape lemma for the docx flush; same statement, docx final save. -/
lemma packPartsDocx_escape (m : Nat) (wc : P → Nat) (ps₁ ps₂ : List P) (p : P)
    (hpos : (packRun m wc ps₁).current = [] ∨ 0 < (packRun m wc ps₁).currentWords)
    (hov : m < wc p) :
    ∃ pre post, packPartsDocx m wc (ps₁ ++ p :: ps₂) = pre ++ [p] :: post := by
  have hw := (packRun_inv m wc ps₁).1
  have hsplit : packPartsDocx m wc (ps₁ ++ p :: ps₂) =
      packFinishDocx m wc (packRun m wc ps₁) (p :: ps₂) := by
    rw [packPartsDocx_eq_finish, packFinishDocx_append]
    rfl
  rcases hpos with hnil | hposw
  · have hcw0 : (packRun m wc ps₁).currentWords = 0 := by
      rw [hw, hnil]; simp [sumWc]
    have hstep : packStep m wc (packRun m wc ps₁) p =
        ⟨(packRun m wc ps₁).partNum, [p], wc p, (packRun m wc ps₁).emitted⟩ := by
      rw [packStep_add m wc _ p (by rintro ⟨-, hgt⟩; omega)]
      rw [hnil, hcw0]
      simp
    refine ⟨(packRun m wc ps₁).emitted,
      packFinishDocx m wc ⟨(packRun m wc ps₁).partNum + 1, [], 0, []⟩ ps₂, ?_⟩
    rw [hsplit, packFinishDocx_cons, hstep,
      packFinishDocx_oversized m wc ps₂ _ (wc p) [p] _ hov]
  · have hc : (packRun m wc ps₁).currentWords + wc p > m ∧
        (packRun m wc ps₁).currentWords > 0 :=
      ⟨Nat.lt_of_lt_of_le hov (Nat.le_add_left _ _), hposw⟩
    refine ⟨(packRun m wc ps₁).emitted ++ [(packRun m wc ps₁).current],
      packFinishDocx m wc ⟨(packRun m wc ps₁).partNum + 1 + 1, [], 0, []⟩ ps₂, ?_⟩
    rw [hsplit, packFinishDocx_cons, packStep_close m wc _ p hc,
      packFinishDocx_oversized m wc ps₂ _ (wc p) [p] _ hov]

/-- C3: a paragraph `p` with `count_words(p) > maxWords` that is
appended while the current part is empty (accumulated word count 0:
either nothing has been packed into the current part, or the overflow
check has just fired and reset it) becomes a part of its own in both
handlers: the emitted parts are some prefix, then exactly `[p]` — a
single-paragraph part whose total exceeds the limit — then the parts of
the remaining input.  In particular `p` is neither split nor dropped. -/
theorem c3_oversized_escape (m : Nat) (ps₁ ps₂ : List (List Char)) (p : List Char)
    (hpos : (packRun m countWords ps₁).current = [] ∨
      0 < (packRun m countWords ps₁).currentWords)
    (hov : m < countWords p) :
    m < sumWc countWords [p] ∧
      (∃ pre post,
        packPartsTxt m countWords (ps₁ ++ p :: ps₂) = pre ++ [p] :: post) ∧
      (∃ pre post,
        packPartsDocx m countWords (ps₁ ++ p :: ps₂) = pre ++ [p] :: post) :=
  ⟨by simpa [sumWc_singleton] using hov,
    packPartsTxt_escape m countWords ps₁ ps₂ p hpos hov,
    packPartsDocx_escape m countWords ps₁ ps₂ p hpos hov⟩

theorem c3_oversized_escape_witness :
    ((packRun 5 countWords ([] : List (List Char))).current = [] ∨
        0 < (packRun 5 countWords ([] : List (List Char))).currentWords) ∧
      5 < countWords ("a b c d e f".toList) ∧
      (5 < sumWc countWords [("a b c d e f".toList)] ∧
        (∃ pre post,
          packPartsTxt 5 countWords ([] ++ ("a b c d e f".toList) :: [("x y".toList)]) =
            pre ++ [("a b c d e f".toList)] :: post) ∧
        (∃ pre post,
          packPartsDocx 5 countWords ([] ++ ("a b c d e f".toList) :: [("x y".toList)]) =
            pre ++ [("a b c d e f".toList)] :: post)) :=
  ⟨by decide, by decide,
    c3_oversized_escape 5 [] [("x y".toList)] ("a b c d e f".toList)
      (by decide) (by decide)⟩

/-! ## Output-naming lemmas -/

lemma digitChar_mem_digits (k : Nat) (hk : k < 10) :
    Nat.digitChar k ∈ ("0123456789".toList) := by
  interval_cases k <;> decide

lemma natDigitsGo_mem (fuel : Nat) :
    ∀ (k : Nat) (acc : List Char), (∀ c ∈ acc, c ∈ ("0123456789".toList)) →
      ∀ c ∈ natDigitsGo fuel k acc, c ∈ ("0123456789".toList) := by
  induction fuel with
  | zero => exact fun k acc hacc => hacc
  | succ fuel ih =>
    intro k acc hacc
    unfold natDigitsGo
    split
    · intro c hc
      rcases List.mem_cons.mp hc with rfl | hmem
      · exact digitChar_mem_digits k (by assumption)
      · exact hacc c hmem
    · apply ih
      intro c hc
      rcases List.mem_cons.mp hc with rfl | hmem
      · exact digitChar_mem_digits (k % 10) (Nat.mod_lt k (by norm_num))
      · exact hacc c hmem

lemma natDigits_mem (n : Nat) : ∀ c ∈ natDigits n, c ∈ ("0123456789".toList) :=
  natDigitsGo_mem (n + 1) n [] (by simp)

lemma digit_char_flags (c : Char) (h : c ∈ ("0123456789".toList)) :
    isInvalidFileChar c = false ∧ isPyWs c = false ∧ (c == '.') = false := by
  fin_cases h <;> decide

lemma lstripBy_cons_of_neg (f : Char → Bool) (c : Char) (l : List Char)
    (h : f c = false) : lstripBy f (c :: l) = c :: l := by
  unfold lstripBy
  rw [List.dropWhile_cons_of_neg (by simp [h])]

lemma rstripBy_append_last (f : Char → Bool) (l : List Char) (c : Char)
    (hc : f c = false) : rstripBy f (l ++ [c]) = l ++ [c] := by
  unfold rstripBy
  rw [List.reverse_append]
  simp [hc]

/-- `sanitize_filename` leaves the generated re-split part names
unchanged: they contain no invalid character, start with `'R'` (not
whitespace) and end with `'x'` (neither whitespace nor a period). -/
lemma sanitize_part_name (D : List Char)
    (hD : ∀ c ∈ D, c ∈ ("0123456789".toList)) :
    sanitize_filename
        (['R', 'e', 'p', 'o', 'r', 't', ' ', ' ', '-', ' ', 'P', 'a', 'r', 't', ' '] ++
          D ++ ['.', 'd', 'o', 'c', 'x']) =
      ['R', 'e', 'p', 'o', 'r', 't', ' ', ' ', '-', ' ', 'P', 'a', 'r', 't', ' '] ++
        D ++ ['.', 'd', 'o', 'c', 'x'] := by
  have hgood : ∀ a ∈
      ['R', 'e', 'p', 'o', 'r', 't', ' ', ' ', '-', ' ', 'P', 'a', 'r', 't', ' '] ++
        D ++ ['.', 'd', 'o', 'c', 'x'], (!isInvalidFileChar a) = true := by
    have hL : ∀ a ∈ ['R', 'e', 'p', 'o', 'r', 't', ' ', ' ', '-', ' ', 'P', 'a', 'r', 't', ' '],
        (!isInvalidFileChar a) = true := by decide
    have hR : ∀ a ∈ ['.', 'd', 'o', 'c', 'x'], (!isInvalidFileChar a) = true := by decide
    intro a ha
    rcases List.mem_append.mp ha with h | h
    · rcases List.mem_append.mp h with h | h
      · exact hL a h
      · simp [(digit_char_flags a (hD a h)).1]
    · exact hR a h
  have hcons :
      ['R', 'e', 'p', 'o', 'r', 't', ' ', ' ', '-', ' ', 'P', 'a', 'r', 't', ' '] ++
        D ++ ['.', 'd', 'o', 'c', 'x'] =
      'R' :: (['e', 'p', 'o', 'r', 't', ' ', ' ', '-', ' ', 'P', 'a', 'r', 't', ' '] ++
        D ++ ['.', 'd', 'o', 'c', 'x']) := by
    simp
  have hx :
      ['R', 'e', 'p', 'o', 'r', 't', ' ', ' ', '-', ' ', 'P', 'a', 'r', 't', ' '] ++
        D ++ ['.', 'd', 'o', 'c', 'x'] =
      (['R', 'e', 'p', 'o', 'r', 't', ' ', ' ', '-', ' ', 'P', 'a', 'r', 't', ' '] ++
        D ++ ['.', 'd', 'o', 'c']) ++ ['x'] := by
    simp
  have hls : lstripBy isPyWs
      (['R', 'e', 'p', 'o', 'r', 't', ' ', ' ', '-', ' ', 'P', 'a', 'r', 't', ' '] ++
        D ++ ['.', 'd', 'o', 'c', 'x']) =
      ['R', 'e', 'p', 'o', 'r', 't', ' ', ' ', '-', ' ', 'P', 'a', 'r', 't', ' '] ++
        D ++ ['.', 'd', 'o', 'c', 'x'] := by
    rw [hcons, lstripBy_cons_of_neg _ _ _ (by decide), ← hcons]
  have hrs1 : rstripBy isPyWs
      (['R', 'e', 'p', 'o', 'r', 't', ' ', ' ', '-', ' ', 'P', 'a', 'r', 't', ' '] ++
        D ++ ['.', 'd', 'o', 'c', 'x']) =
      ['R', 'e', 'p', 'o', 'r', 't', ' ', ' ', '-', ' ', 'P', 'a', 'r', 't', ' '] ++
        D ++ ['.', 'd', 'o', 'c', 'x'] := by
    rw [hx, rstripBy_append_last _ _ _ (by decide), ← hx]
  have hrs2 : rstripBy (fun c => c == '.')
      (['R', 'e', 'p', 'o', 'r', 't', ' ', ' ', '-', ' ', 'P', 'a', 'r', 't', ' '] ++
        D ++ ['.', 'd', 'o', 'c', 'x']) =
      ['R', 'e', 'p', 'o', 'r', 't', ' ', ' ', '-', ' ', 'P', 'a', 'r', 't', ' '] ++
        D ++ ['.', 'd', 'o', 'c', 'x'] := by
    rw [hx, rstripBy_append_last _ _ _ (by decide), ← hx]
  have hstrip : pyStrip
      (['R', 'e', 'p', 'o', 'r', 't', ' ', ' ', '-', ' ', 'P', 'a', 'r', 't', ' '] ++
        D ++ ['.', 'd', 'o', 'c', 'x']) =
      ['R', 'e', 'p', 'o', 'r', 't', ' ', ' ', '-', ' ', 'P', 'a', 'r', 't', ' '] ++
        D ++ ['.', 'd', 'o', 'c', 'x'] := by
    unfold pyStrip
    rw [hls, hrs1]
  simp only [sanitize_filename]
  rw [List.filter_eq_self.mpr hgood, hstrip, hrs2, hcons]
  simp

/-- C6 counterexample: the re-split of `"Report - Part 2.docx"` names
its first part `"Report  - Part 1.docx"` — with two spaces before the
marker, because the strip regex `- Part \d+(\.\w+)$` removes the old
marker without its preceding space — not the claimed
`"Report - Part 1.docx"`. -/
theorem c6_naming_counterexample :
    get_output_filename (("Report - Part 2.docx").toList) 1 ("out".toList) 200 =
        ("out/Report  - Part 1.docx").toList ∧
      get_output_filename (("Report - Part 2.docx").toList) 1 ("out".toList) 200 ≠
        ("out/Report - Part 1.docx").toList := by
  constructor <;> decide

/-- C6 (amended): splitting a file already named
`"Report - Part 2.docx"` strips only `"- Part 2"` (without the
preceding space) before appending the new marker, so part `N` is named
`"Report  - Part N.docx"` (double space) for every part number — still
with no nested `" - Part"` markers.  In general the output is
`"<base> - Part <N><ext>"` where `<base>` is the original base name
with a trailing `"- Part <M>"` marker removed. -/
theorem c6_naming_amended (n : Nat) (folder : List Char) :
    get_output_filename (("Report - Part 2.docx").toList) n folder 200 =
      folder ++ '/' :: (("Report  - Part ".toList) ++ natDigits n ++ (".docx".toList)) := by
  have key := sanitize_part_name (natDigits n) (natDigits_mem n)
  have hfront : get_output_filename (("Report - Part 2.docx").toList) n folder 200 =
      folder ++ '/' :: sanitize_filename
        (['R', 'e', 'p', 'o', 'r', 't', ' ', ' ', '-', ' ', 'P', 'a', 'r', 't', ' '] ++
          natDigits n ++ ['.', 'd', 'o', 'c', 'x']) := rfl
  rw [hfront, key]
  rfl

/-! ## Whitespace-only text counts zero words -/

lemma pyWs_char_cases (c : Char) (h : isPyWs c = true) :
    c = ' ' ∨ c = '\t' ∨ c = '\n' ∨ c = '\x0b' ∨ c = '\x0c' ∨ c = '\r' ∨ c = '\xa0' := by
  simp only [isPyWs, Bool.or_eq_true, beq_iff_eq] at h
  tauto

lemma pyWs_char_facts (c : Char) (h : isPyWs c = true) :
    isWordChar c = false ∧ isDashSep c = false ∧ isClosePunct c = false ∧
      isOpenPunct c = false := by
  rcases pyWs_char_cases c h with rfl | rfl | rfl | rfl | rfl | rfl | rfl <;> decide

lemma replaceNbsp_allWs (l : List Char) (h : ∀ c ∈ l, isPyWs c = true) :
    ∀ c ∈ replaceNbsp l, isPyWs c = true := by
  intro c hc
  simp only [replaceNbsp, List.mem_map] at hc
  obtain ⟨a, ha, rfl⟩ := hc
  by_cases hA : a = '\xa0'
  · rw [if_pos hA]; decide
  · rw [if_neg hA]; exact h a ha

lemma subSpaceDashSpace_allWs :
    ∀ (l : List Char), (∀ c ∈ l, isPyWs c = true) → subSpaceDashSpace l = l := by
  intro l
  induction l with
  | nil => intro _; rfl
  | cons c t ih =>
    intro h
    rcases t with _ | ⟨c1, t1⟩
    · rfl
    rcases t1 with _ | ⟨c2, t2⟩
    · rfl
    have hd : isDashSep c1 = false := (pyWs_char_facts c1 (h c1 (by simp))).2.1
    have ht : subSpaceDashSpace (c1 :: c2 :: t2) = c1 :: c2 :: t2 :=
      ih (fun x hx => h x (List.mem_cons_of_mem c hx))
    simp [subSpaceDashSpace, hd, ht]

lemma protectHyphensGo_allNonWord (fuel : Nat) :
    ∀ (l : List Char), (∀ c ∈ l, isWordChar c = false) →
      protectHyphensGo fuel l = l := by
  induction fuel with
  | zero => intro l _; rfl
  | succ fuel ih =>
    intro l h
    rcases l with _ | ⟨c, t⟩
    · rfl
    · have hc : isWordChar c = false := h c (by simp)
      have ht : protectHyphensGo fuel t = t :=
        ih t (fun x hx => h x (List.mem_cons_of_mem c hx))
      simp [protectHyphensGo, hc, ht]

lemma protectHyphens_allWs (l : List Char) (h : ∀ c ∈ l, isPyWs c = true) :
    protectHyphens l = l :=
  protectHyphensGo_allNonWord (l.length + 1) l
    (fun c hc => (pyWs_char_facts c (h c hc)).1)

lemma addSpaceAfterPunct_allWs :
    ∀ (l : List Char), (∀ c ∈ l, isPyWs c = true) → addSpaceAfterPunct l = l := by
  intro l
  induction l with
  | nil => intro _; rfl
  | cons c t ih =>
    intro h
    rcases t with _ | ⟨c1, t1⟩
    · rfl
    have hc : isClosePunct c = false := (pyWs_char_facts c (h c (by simp))).2.2.1
    have ht : addSpaceAfterPunct (c1 :: t1) = c1 :: t1 :=
      ih (fun x hx => h x (List.mem_cons_of_mem c hx))
    simp [addSpaceAfterPunct, hc, ht]

lemma addSpaceBeforePunct_allWs :
    ∀ (l : List Char), (∀ c ∈ l, isPyWs c = true) → addSpaceBeforePunct l = l := by
  intro l
  induction l with
  | nil => intro _; rfl
  | cons c t ih =>
    intro h
    rcases t with _ | ⟨c1, t1⟩
    · rfl
    have hc : isWordChar c = false := (pyWs_char_facts c (h c (by simp))).1
    have ht : addSpaceBeforePunct (c1 :: t1) = c1 :: t1 :=
      ih (fun x hx => h x (List.mem_cons_of_mem c hx))
    simp [addSpaceBeforePunct, hc, ht]

lemma collapseWsGo_allWs_inRun :
    ∀ (l : List Char), (∀ c ∈ l, isPyWs c = true) → collapseWsGo true l = [] := by
  intro l
  induction l with
  | nil => intro _; rfl
  | cons c t ih =>
    intro h
    have hc : isPyWs c = true := h c (by simp)
    have ht : collapseWsGo true t = [] :=
      ih (fun x hx => h x (List.mem_cons_of_mem c hx))
    simp [collapseWsGo, hc, ht]

lemma pyStrip_collapseWs_allWs (l : List Char) (h : ∀ c ∈ l, isPyWs c = true) :
    pyStrip (collapseWs l) = [] := by
  rcases l with _ | ⟨c, t⟩
  · rfl
  · have hc : isPyWs c = true := h c (by simp)
    have ht : collapseWsGo true t = [] :=
      collapseWsGo_allWs_inRun t (fun x hx => h x (List.mem_cons_of_mem c hx))
    have hcw : collapseWs (c :: t) = [' '] := by
      simp [collapseWs, collapseWsGo, hc, ht]
    rw [hcw]
    decide

/-- Whitespace-only text has word count 0: every normalisation stage is
the identity on it, whitespace collapsing and stripping empty it, and
the split of the empty text has no tokens. -/
lemma countWords_allWs (t : List Char) (h : ∀ c ∈ t, isPyWs c = true) :
    countWords t = 0 := by
  rcases t with _ | ⟨c, t'⟩
  · rfl
  · have h1 := replaceNbsp_allWs (c :: t') h
    have e2 := subSpaceDashSpace_allWs (replaceNbsp (c :: t')) h1
    have e3 := protectHyphens_allWs (replaceNbsp (c :: t')) h1
    have e4 := addSpaceAfterPunct_allWs (replaceNbsp (c :: t')) h1
    have e5 := addSpaceBeforePunct_allWs (replaceNbsp (c :: t')) h1
    have e6 := pyStrip_collapseWs_allWs (replaceNbsp (c :: t')) h1
    simp [countWords, e2, e3, e4, e5, e6, pySplit, pySplitGo]

/-- If `strip` empties a text, every character of it is whitespace. -/
lemma allWs_of_pyStrip_eq_nil (l : List Char) (h : pyStrip l = []) :
    ∀ c ∈ l, isPyWs c = true := by
  have hall : ∀ c ∈ lstripBy isPyWs l, isPyWs c = true := by
    unfold pyStrip rstripBy at h
    have h2 : List.dropWhile isPyWs (lstripBy isPyWs l).reverse = [] :=
      List.reverse_eq_nil_iff.mp h
    intro c hc
    exact List.dropWhile_eq_nil_iff.mp h2 c (List.mem_reverse.mpr hc)
  have h4 : lstripBy isPyWs l = [] := by
    rcases he : lstripBy isPyWs l with _ | ⟨c, t⟩
    · rfl
    · exfalso
      have hcw : isPyWs c = true := hall c (by rw [he]; simp)
      have hcf : isPyWs c = false := by
        have hgen : ∀ (l' : List Char) c' t', List.dropWhile isPyWs l' = c' :: t' →
            isPyWs c' = false := by
          intro l'
          induction l' with
          | nil => intro c' t' hd; simp at hd
          | cons a l' ih =>
            intro c' t' hd
            by_cases hpa : isPyWs a = true
            · rw [List.dropWhile_cons_of_pos hpa] at hd
              exact ih c' t' hd
            · rw [List.dropWhile_cons_of_neg (by simp [hpa])] at hd
              cases hd
              simp at hpa
              exact hpa
        exact hgen l c t (by rw [← he]; rfl)
      rw [hcw] at hcf
      cases hcf
  exact List.dropWhile_eq_nil_iff.mp h4

/-! ## Sum lemmas for the DOCX extractor -/

lemma sum_map_filter_of_zero (g : α → Nat) (f : α → Bool) :
    ∀ (l : List α), (∀ a ∈ l, f a = false → g a = 0) →
      ((l.filter f).map g).sum = (l.map g).sum := by
  intro l
  induction l with
  | nil => intro _; rfl
  | cons a t ih =>
    intro h
    have ht := ih (fun x hx hfx => h x (List.mem_cons_of_mem a hx) hfx)
    by_cases hf : f a = true
    · rw [List.filter_cons, if_pos hf]
      simp [ht]
    · have hf' : f a = false := by simpa using hf
      rw [List.filter_cons, if_neg (by simp [hf'])]
      simp [ht, h a (by simp) hf']

lemma sum_map_flatMap (g : β → Nat) (f : α → List β) (l : List α) :
    ((l.flatMap f).map g).sum = (l.map fun a => ((f a).map g).sum).sum := by
  induction l with
  | nil => rfl
  | cons a t ih => simp [List.flatMap_cons, ih]

/-- All paragraphs of a DOCX document, body first and then the table
cells by table, row and cell — including whitespace-only ones. -/
def allDocxParagraphs (doc : DocxDoc) : List DocxPara :=
  doc.paragraphs ++
    doc.tables.flatMap fun table => table.rows.flatMap fun row =>
      row.cells.flatMap fun cell => cell.paragraphs

lemma processParasDocx_totalWords (m : Nat) (skip : Bool) (wc : P → Nat)
    (ps : List P) : (processParasDocx m skip wc ps).totalWords = sumWc wc ps := by
  simp only [processParasDocx]
  split <;> rfl

lemma sumWc_map_text (l : List DocxPara) :
    sumWc countWords (l.map DocxPara.text) = (l.map fun p => countWords p.text).sum := by
  unfold sumWc
  rw [List.map_map]
  rfl

/-- C10: the paragraph sequence fed to the packer by the DOCX handler
is: all body paragraphs whose text does not strip to empty, in document
order, followed by all non-whitespace-only table-cell paragraphs,
iterated by table, then row, then cell, then paragraph — so table
content always comes after all body text.  No whitespace-only paragraph
reaches the packer, and the reported total word count nevertheless
equals the total over all paragraphs including the whitespace-only ones
(their word count is 0). -/
theorem c10_docx_extraction (doc : DocxDoc) :
    getDocxParagraphs doc =
        (doc.paragraphs.filter fun p => !(pyStrip p.text).isEmpty) ++
          (doc.tables.flatMap fun table => table.rows.flatMap fun row =>
            row.cells.flatMap fun cell =>
              cell.paragraphs.filter fun p => !(pyStrip p.text).isEmpty) ∧
      (∀ p ∈ getDocxParagraphs doc, pyStrip p.text ≠ []) ∧
      (∀ (m : Nat) (skip : Bool), (process_docx m skip doc).totalWords =
        ((allDocxParagraphs doc).map fun p => countWords p.text).sum) := by
  have hzero : ∀ (p : DocxPara), (!(pyStrip p.text).isEmpty) = false →
      countWords p.text = 0 := by
    intro p hp
    have hnil : pyStrip p.text = [] := by
      simp only [Bool.not_eq_false] at hp
      simpa using hp
    exact countWords_allWs p.text (allWs_of_pyStrip_eq_nil p.text hnil)
  refine ⟨rfl, ?_, ?_⟩
  · intro p hp
    have hkeep : (!(pyStrip p.text).isEmpty) = true := by
      rcases List.mem_append.mp hp with h | h
      · exact (List.mem_filter.mp h).2
      · obtain ⟨table, -, h⟩ := List.mem_flatMap.mp h
        obtain ⟨row, -, h⟩ := List.mem_flatMap.mp h
        obtain ⟨cell, -, h⟩ := List.mem_flatMap.mp h
        exact (List.mem_filter.mp h).2
    simp only [Bool.not_eq_eq_eq_not, Bool.not_true] at hkeep
    simpa using hkeep
  · intro m skip
    simp only [process_docx]
    rw [processParasDocx_totalWords, sumWc_map_text]
    unfold getDocxParagraphs allDocxParagraphs
    rw [List.map_append, List.map_append, List.sum_append, List.sum_append]
    congr 1
    · exact sum_map_filter_of_zero _ _ doc.paragraphs (fun a _ hfa => hzero a hfa)
    · rw [sum_map_flatMap, sum_map_flatMap]
      congr 1
      apply List.map_congr_left
      intro table _
      rw [sum_map_flatMap, sum_map_flatMap]
      congr 1
      apply List.map_congr_left
      intro row _
      rw [sum_map_flatMap, sum_map_flatMap]
      congr 1
      apply List.map_congr_left
      intro cell _
      exact sum_map_filter_of_zero _ _ cell.paragraphs (fun a _ hfa => hzero a hfa)
